import Mathlib

/-!
Verification development for the Dynamic-Traffic-Light repository.

The repository consists of two Python scripts:
  * `dynamic_traffic_light.py` — paginated HTTP fetch (`fetch_data`),
    forward-fill cleaning (`clean_data`), numeric non-negativity row
    filtering (`filter_negative_values`), and a SQLite write
    (`store_to_sqlite`);
  * `folium_traffic_dataset.py` — a buffered-point adjacency scan over
    intersection records (capped at seven matches), plus copies of the
    cleaning, filtering and storing routines.

This file gives a shallow embedding of those routines and proves the
specified properties about them.
-/

namespace TrafficLight

/-! ## Fetcher (`fetch_data`, dynamic_traffic_light.py lines 14-42)

The Python loop issues GET requests with `$limit`/`$offset` parameters,
starting at offset 0 and incrementing by the page size after each
successful non-empty page.  It stops on an empty page, on a request
failure (the `except` branch logs and breaks), or once the incremented
offset exceeds the hard ceiling 900.

A simulated paginated source is an underlying record list together with
a set of offsets at which the HTTP layer fails; a request for
(`limit`, `offset`) that does not fail yields
`(data.drop offset).take limit`, exactly what a limit/offset API serves. -/

structure Source (α : Type) where
  data : List α
  fails : Nat → Bool

/-- One HTTP request: `none` models a raised `RequestException`,
`some chunk` models `response.json()`. -/
def Source.page {α : Type} (S : Source α) (limit offset : Nat) : Option (List α) :=
  if S.fails offset then none else some ((S.data.drop offset).take limit)

/-- The observable outcome of `fetch_data`: the accumulated records
(`all_data` in the Python), the offsets of the issued requests in
order, and the successfully fetched pages in order. -/
structure FetchResult (α : Type) where
  allData : List α
  requests : List Nat
  pages : List (List α)
deriving DecidableEq, Repr

/-- The `while True` loop of `fetch_data`, as structural recursion on a
fuel argument.  Each iteration: issue the request at `offset`; on
failure break; on an empty chunk break; otherwise accumulate the chunk,
increment the offset by `limit`, and break if the new offset exceeds
900.  Fuel 902 is enough for every source (proved in
`fetchLoop_fuel_stable`): a non-empty chunk forces `limit ≥ 1`, so the
offset strictly grows until the ceiling breaks the loop. -/
def fetchLoop {α : Type} (S : Source α) (limit : Nat) : Nat → Nat → FetchResult α
  | 0, _ => ⟨[], [], []⟩
  | fuel + 1, offset =>
    match S.page limit offset with
    | none => ⟨[], [offset], []⟩
    | some chunk =>
      if chunk.isEmpty then ⟨[], [offset], [chunk]⟩
      else if offset + limit > 900 then ⟨chunk, [offset], [chunk]⟩
      else
        let rest := fetchLoop S limit fuel (offset + limit)
        ⟨chunk ++ rest.allData, offset :: rest.requests, chunk :: rest.pages⟩

/-- `fetch_data(url, limit)` against a simulated source. -/
def fetch_data {α : Type} (S : Source α) (limit : Nat) : FetchResult α :=
  fetchLoop S limit 902 0

/-- The fuel argument of `fetchLoop` is an artifact: any fuel of at
least `901 - offset` iterations (and at least one) gives the same
result, so `fetch_data`'s fuel of 902 never truncates the loop. -/
lemma fetchLoop_fuel_stable {α : Type} (S : Source α) (limit : Nat) :
    ∀ (f k offset : Nat), 1 ≤ f → 901 ≤ f + offset →
      fetchLoop S limit (f + k) offset = fetchLoop S limit f offset := by
  intro f
  induction f with
  | zero => intro k offset h1 _; omega
  | succ f ih =>
    intro k offset _ h901
    have hfk : f + 1 + k = (f + k) + 1 := by omega
    rw [hfk]
    show fetchLoop S limit ((f + k) + 1) offset = fetchLoop S limit (f + 1) offset
    unfold fetchLoop
    cases hpg : S.page limit offset with
    | none => rfl
    | some chunk =>
      simp only
      by_cases hemp : chunk.isEmpty
      · simp [hemp]
      · simp only [hemp, if_false, Bool.false_eq_true]
        by_cases hceil : offset + limit > 900
        · simp [hceil]
        · have hlim : 1 ≤ limit := by
            by_contra hl
            have hl0 : limit = 0 := by omega
            have : chunk = [] := by
              have := hpg
              unfold Source.page at this
              by_cases hf : S.fails offset
              · simp [hf] at this
              · simp [hf, hl0] at this
                exact this
            simp [this] at hemp
          have h1 : 1 ≤ f := by omega
          have h2 : 901 ≤ f + (offset + limit) := by omega
          simp only [hceil, if_false, gt_iff_lt, Nat.not_lt] at *
          rw [ih k (offset + limit) h1 h2]

theorem fetch_data_fuel_irrelevant {α : Type} (S : Source α) (limit k : Nat) :
    fetchLoop S limit (902 + k) 0 = fetch_data S limit :=
  fetchLoop_fuel_stable S limit 902 k 0 (by omega) (by omega)

/-- At every fuel and offset, the accumulated records are the
concatenation, in order, of the successfully fetched pages. -/
lemma fetchLoop_allData_eq_join {α : Type} (S : Source α) (limit : Nat) :
    ∀ fuel offset, (fetchLoop S limit fuel offset).allData
      = (fetchLoop S limit fuel offset).pages.flatten := by
  intro fuel
  induction fuel with
  | zero => intro offset; rfl
  | succ fuel ih =>
    intro offset
    unfold fetchLoop
    cases hpg : S.page limit offset with
    | none => rfl
    | some chunk =>
      simp only
      by_cases hemp : chunk.isEmpty
      · rw [List.isEmpty_iff] at hemp
        simp [hemp]
      · by_cases hceil : offset + limit > 900
        · simp [hemp, hceil]
        · simp [hemp, hceil, List.flatten, ih (offset + limit)]

/-- Every request the loop issues from an offset within the ceiling
stays within the ceiling, and a request whose successor offset would
exceed the ceiling is the last request issued. -/
lemma fetchLoop_requests_bounded {α : Type} (S : Source α) (limit : Nat) :
    ∀ fuel offset, offset ≤ 900 →
      ∀ o ∈ (fetchLoop S limit fuel offset).requests,
        o ≤ 900 ∧ (900 < o + limit →
          (fetchLoop S limit fuel offset).requests.getLast? = some o) := by
  intro fuel
  induction fuel with
  | zero => intro offset _ o ho; simp [fetchLoop] at ho
  | succ fuel ih =>
    intro offset hoff o ho
    unfold fetchLoop at ho ⊢
    cases hpg : S.page limit offset with
    | none =>
      rw [hpg] at ho
      simp at ho
      subst ho
      exact ⟨hoff, fun _ => rfl⟩
    | some chunk =>
      rw [hpg] at ho
      by_cases hemp : chunk.isEmpty
      · simp only [hemp, if_true] at ho ⊢
        simp at ho
        subst ho
        exact ⟨hoff, fun _ => rfl⟩
      · by_cases hceil : offset + limit > 900
        · simp only [hemp, Bool.false_eq_true, if_false, hceil, if_true] at ho ⊢
          simp at ho
          subst ho
          exact ⟨hoff, fun _ => rfl⟩
        · simp only [hemp, hceil, Bool.false_eq_true, if_false] at ho ⊢
          simp only [List.mem_cons] at ho
          have hoff' : offset + limit ≤ 900 := by omega
          cases ho with
          | inl h =>
            subst h
            refine ⟨hoff, fun hgt => absurd hoff' (by omega)⟩
          | inr h =>
            have := ih (offset + limit) hoff' o h
            refine ⟨this.1, fun hgt => ?_⟩
            have hlast := this.2 hgt
            cases hrq : (fetchLoop S limit fuel (offset + limit)).requests with
            | nil =>
              rw [hrq] at h
              exact absurd h (List.not_mem_nil o)
            | cons a l =>
              rw [hrq] at hlast
              rw [List.getLast?_cons_cons]
              exact hlast

/-- A successful request means the HTTP layer did not fail at that offset. -/
lemma fails_false_of_page_some {α : Type} {S : Source α} {limit offset : Nat}
    {c : List α} (h : S.page limit offset = some c) : S.fails offset = false := by
  by_cases hf : S.fails offset
  · simp [Source.page, hf] at h
  · simpa using hf

/-- A failed request means the HTTP layer failed at that offset. -/
lemma fails_true_of_page_none {α : Type} {S : Source α} {limit offset : Nat}
    (h : S.page limit offset = none) : S.fails offset = true := by
  by_cases hf : S.fails offset
  · exact hf
  · simp [Source.page, hf] at h

/-- If some issued request failed, then the failing request is the last
request (pagination halted there, no retry), all earlier requests
succeeded, exactly one request (the failing one) produced no page, and
the accumulated data is the concatenation of the successful pages. -/
lemma fetchLoop_failure {α : Type} (S : Source α) (limit : Nat) :
    ∀ fuel offset,
      (∃ o ∈ (fetchLoop S limit fuel offset).requests, S.fails o = true) →
      (∃ o, (fetchLoop S limit fuel offset).requests.getLast? = some o ∧ S.fails o = true)
      ∧ (∀ o ∈ (fetchLoop S limit fuel offset).requests.dropLast, S.fails o = false)
      ∧ (fetchLoop S limit fuel offset).pages.length + 1
          = (fetchLoop S limit fuel offset).requests.length
      ∧ (fetchLoop S limit fuel offset).allData
          = (fetchLoop S limit fuel offset).pages.flatten := by
  intro fuel
  induction fuel with
  | zero =>
    intro offset h
    simp [fetchLoop] at h
  | succ fuel ih =>
    intro offset h
    unfold fetchLoop at h ⊢
    cases hpg : S.page limit offset with
    | none =>
      rw [hpg] at h
      refine ⟨⟨offset, rfl, fails_true_of_page_none hpg⟩, ?_, rfl, rfl⟩
      intro o ho
      simp at ho
    | some chunk =>
      have hfure := fails_false_of_page_some hpg
      rw [hpg] at h
      by_cases hemp : chunk.isEmpty
      · simp only [hemp, if_true] at h
        simp at h
        exact absurd hfure (by simp [h])
      · by_cases hceil : offset + limit > 900
        · simp only [hemp, Bool.false_eq_true, if_false, hceil, if_true] at h
          simp at h
          exact absurd hfure (by simp [h])
        · simp only [hemp, hceil, Bool.false_eq_true, if_false] at h ⊢
          have hrest : ∃ o ∈ (fetchLoop S limit fuel (offset + limit)).requests,
              S.fails o = true := by
            obtain ⟨o, ho, hfo⟩ := h
            simp only [List.mem_cons] at ho
            cases ho with
            | inl he => rw [he] at hfo; rw [hfo] at hfure; exact absurd hfure (by simp)
            | inr hm => exact ⟨o, hm, hfo⟩
          obtain ⟨⟨o, holast, hofail⟩, hprev, hlen, hjoin⟩ := ih (offset + limit) hrest
          have hne : (fetchLoop S limit fuel (offset + limit)).requests ≠ [] := by
            intro hnil
            rw [hnil] at holast
            simp at holast
          refine ⟨⟨o, ?_, hofail⟩, ?_, ?_, ?_⟩
          · cases hrq : (fetchLoop S limit fuel (offset + limit)).requests with
            | nil => exact absurd hrq hne
            | cons a l =>
              rw [hrq] at holast
              rw [List.getLast?_cons_cons]
              exact holast
          · intro o' ho'
            cases hrq : (fetchLoop S limit fuel (offset + limit)).requests with
            | nil => exact absurd hrq hne
            | cons a l =>
              rw [hrq] at ho' hprev
              simp only [List.dropLast_cons₂, List.mem_cons] at ho'
              cases ho' with
              | inl he => rw [he]; exact hfure
              | inr hm => exact hprev o' (by simpa using hm)
          · simp only [List.length_cons]
            omega
          · simp only [List.flatten_cons]
            rw [hjoin]

/-- Simulated 3-page source of the C1 scenario: four records served two
at a time, so the pages at offsets 0, 2 and 4 hold 2, 2 and 0 records. -/
def srcScenario : Source Nat := ⟨[10, 20, 30, 40], fun _ => false⟩

/-- Simulated source whose request at offset 2 raises an HTTP failure. -/
def srcFail : Source Nat := ⟨[1, 2, 3, 4, 5, 6], fun o => o == 2⟩

/-- C1: for every simulated paginated source and every page size,
`fetch_data` returns exactly the concatenation of the successfully
fetched pages in fetch order; the 3-page scenario with pages of 2, 2
and 0 records at page size 2 accumulates exactly 4 records, issues
requests at offsets 0, 2, 4, and stops at the empty page. -/
theorem fetch_data_concatenates_pages {α : Type} (S : Source α) (limit : Nat) :
    (fetch_data S limit).allData = (fetch_data S limit).pages.flatten
    ∧ (fetch_data srcScenario 2).allData = [10, 20, 30, 40]
    ∧ (fetch_data srcScenario 2).allData.length = 4
    ∧ (fetch_data srcScenario 2).pages = [[10, 20], [30, 40], []]
    ∧ (fetch_data srcScenario 2).requests = [0, 2, 4] :=
  ⟨fetchLoop_allData_eq_join S limit 902 0, by decide, by decide, by decide, by decide⟩

/-- C2: every HTTP request `fetch_data` issues carries an offset of at
most the hard ceiling 900, and a request whose successor offset would
exceed the ceiling is the last request issued. -/
theorem fetch_data_offset_ceiling {α : Type} (S : Source α) (limit : Nat) :
    ∀ o ∈ (fetch_data S limit).requests,
      o ≤ 900 ∧ (900 < o + limit → (fetch_data S limit).requests.getLast? = some o) :=
  fun o ho => fetchLoop_requests_bounded S limit 902 0 (by omega) o ho

/-- Witness for C2 at the scenario source with page size 600: the
request at offset 600 is within the ceiling and, since 600 + 600
exceeds it, is the last request. -/
theorem fetch_data_offset_ceiling_witness :
    600 ≤ 900 ∧ (900 < 600 + 600 →
      (fetch_data (Source.mk [10, 20, 30, 40] (fun _ => false)) 600).requests.getLast?
        = some 600) := by
  have h := fetch_data_offset_ceiling (Source.mk [10, 20, 30, 40] (fun _ => false)) 600
  exact h 600 (by decide)

/-- C3: when a request raises an HTTP-layer failure, `fetch_data` halts
pagination at the failing request (it is the last request and no
earlier one failed, hence no retry), and returns the records
accumulated from the pages fetched before the failure. -/
theorem fetch_data_halts_on_failure {α : Type} (S : Source α) (limit : Nat)
    (h : ∃ o ∈ (fetch_data S limit).requests, S.fails o = true) :
    (∃ o, (fetch_data S limit).requests.getLast? = some o ∧ S.fails o = true)
    ∧ (∀ o ∈ (fetch_data S limit).requests.dropLast, S.fails o = false)
    ∧ (fetch_data S limit).pages.length + 1 = (fetch_data S limit).requests.length
    ∧ (fetch_data S limit).allData = (fetch_data S limit).pages.flatten :=
  fetchLoop_failure S limit 902 0 h

/-- Witness for C3: a source failing at offset 2 with page size 2. -/
theorem fetch_data_halts_on_failure_witness :
    (∃ o, (fetch_data srcFail 2).requests.getLast? = some o ∧ srcFail.fails o = true)
    ∧ (∀ o ∈ (fetch_data srcFail 2).requests.dropLast, srcFail.fails o = false)
    ∧ (fetch_data srcFail 2).pages.length + 1 = (fetch_data srcFail 2).requests.length
    ∧ (fetch_data srcFail 2).allData = (fetch_data srcFail 2).pages.flatten :=
  fetch_data_halts_on_failure srcFail 2 ⟨2, by decide, by decide⟩

/-! ## Cleaner and Filter (`clean_data`, `filter_negative_values`,
dynamic_traffic_light.py lines 44-72; identical copies in
folium_traffic_dataset.py lines 73-101)

A table is modelled column-wise, as pandas stores it: a list of
columns, each a list of cells, where a cell is `none` (NaN / missing)
or a value.  A value from the JSON payload is a number, a string, or a
nested dictionary.  A pandas column has a numeric dtype (`float64` or
`int`) exactly when every present cell is numeric (missing cells are
NaN, a float, and do not stop a column from being numeric). -/

inductive Val where
  | num : Int → Val
  | str : String → Val
  | dict : List (String × String) → Val
deriving DecidableEq, Repr

/-- The textual representation of a dictionary value, as produced by
applying the string conversion to it. -/
def dictToString (d : List (String × String)) : String :=
  "\x7b" ++ String.intercalate ", " (d.map (fun p => p.1 ++ ": " ++ p.2)) ++ "\x7d"

/-- `lambda x: str(x) if isinstance(x, dict) else x` applied to a cell value. -/
def stringifyVal : Val → Val
  | Val.dict d => Val.str (dictToString d)
  | v => v

/-- Whether a cell is compatible with a numeric column dtype. -/
def isNumCell : Option Val → Bool
  | some (Val.num _) => true
  | some _ => false
  | none => true

/-- Whether a column's inferred dtype is numeric (`float64`/`int`),
i.e. not `object`: every present cell holds a number. -/
def isNumericCol (c : List (Option Val)) : Bool := c.all isNumCell

/-- `fillna(method='ffill')` down one column, carrying the most recent
present value. -/
def ffillFrom (carry : Option Val) : List (Option Val) → List (Option Val)
  | [] => []
  | none :: rest => carry :: ffillFrom carry rest
  | some v :: rest => some v :: ffillFrom (some v) rest

def ffillCol (c : List (Option Val)) : List (Option Val) := ffillFrom none c

/-- `clean_data` on one column: forward-fill, then, on `object`-dtype
columns, convert dictionary values to their textual representation.
(A numeric column contains no dictionaries, so the dtype guard only
skips work that would be the identity.) -/
def cleanCol (c : List (Option Val)) : List (Option Val) :=
  let f := ffillCol c
  if isNumericCol f then f else f.map (Option.map stringifyVal)

structure Table where
  cols : List (List (Option Val))
deriving DecidableEq, Repr

/-- `clean_data(df)`: forward-fill every column, then stringify
dictionary values in `object`-dtype columns. -/
def clean_data (t : Table) : Table := Table.mk (t.cols.map cleanCol)

/-- `(value >= 0)` on one cell of a numeric column; a missing value
(NaN) compares false. -/
def cellNonNeg : Option Val → Bool
  | some (Val.num n) => decide (0 ≤ n)
  | _ => false

def Table.nrows (t : Table) : Nat := (t.cols.headD []).length

/-- `df.select_dtypes(include=['float64','int']).columns`. -/
def numericCols (t : Table) : List (List (Option Val)) := t.cols.filter isNumericCol

/-- `(df[columns_to_check] >= 0).all(axis=1)`: one boolean per row. -/
def rowMask (t : Table) : List Bool :=
  (List.range t.nrows).map (fun i => (numericCols t).all (fun c => cellNonNeg (c.getD i none)))

/-- Boolean-mask row selection, `df[mask]`, applied to one column. -/
def applyMask : List Bool → List (Option Val) → List (Option Val)
  | true :: bs, x :: xs => x :: applyMask bs xs
  | false :: bs, _ :: xs => applyMask bs xs
  | _, _ => []

/-- `filter_negative_values(df)`: keep the rows whose mask entry is true. -/
def filter_negative_values (t : Table) : Table :=
  Table.mk (t.cols.map (applyMask (rowMask t)))

/-- Stated from the spec's words, for refinement: a row is kept exactly
when every value in every numeric-typed column at that row is
non-negative; non-numeric columns are not examined. -/
def rowNonNeg (t : Table) (i : Nat) : Bool :=
  t.cols.all (fun c => !isNumericCol c || cellNonNeg (c.getD i none))

/-- Stated from the spec's words: the row indices the Filter keeps. -/
def keptIndices (t : Table) : List Nat := (List.range t.nrows).filter (rowNonNeg t)

/-- The table restricted to the given row indices, in order. -/
def selectRows (t : Table) (idxs : List Nat) : Table :=
  Table.mk (t.cols.map (fun c => idxs.map (fun i => c.getD i none)))

lemma applyMask_length_le : ∀ (bs : List Bool) (c : List (Option Val)),
    (applyMask bs c).length ≤ c.length := by
  intro bs
  induction bs with
  | nil => intro c; simp [applyMask]
  | cons b bs ih =>
    intro c
    cases c with
    | nil => simp [applyMask]
    | cons x xs =>
      cases b with
      | true => simpa [applyMask] using ih xs
      | false =>
        have := ih xs
        simp only [applyMask, List.length_cons]
        omega

lemma applyMask_range_map : ∀ (c : List (Option Val)) (f : Nat → Bool),
    applyMask ((List.range c.length).map f) c
      = ((List.range c.length).filter f).map (fun i => c.getD i none) := by
  intro c
  induction c with
  | nil => intro f; simp [applyMask]
  | cons x xs ih =>
    intro f
    rw [List.length_cons, List.range_succ_eq_map]
    cases hf0 : f 0 with
    | true =>
      simp only [List.map_cons, hf0, List.map_map, applyMask,
        List.filter_cons, if_true, List.getD_cons_zero]
      rw [List.filter_map, List.map_map]
      rw [ih (f ∘ Nat.succ)]
      apply congrArg
      apply List.map_congr_left
      intro a _
      simp [Function.comp]
    | false =>
      simp only [List.map_cons, hf0, List.map_map, applyMask,
        List.filter_cons, if_false, Bool.false_eq_true]
      rw [List.filter_map, List.map_map]
      rw [ih (f ∘ Nat.succ)]
      apply List.map_congr_left
      intro a _
      simp [Function.comp]

lemma all_filter (p q : List (Option Val) → Bool) :
    ∀ (l : List (List (Option Val))),
      (l.filter p).all q = l.all (fun x => !p x || q x) := by
  intro l
  induction l with
  | nil => rfl
  | cons x xs ih =>
    cases hp : p x with
    | true => simp [List.filter_cons, hp, ih]
    | false => simp [List.filter_cons, hp, ih]

/-- The Filter computes exactly the spec-side row selection: on a
rectangular table it keeps the rows of `keptIndices`, in order. -/
lemma filter_eq_selectRows (t : Table) (ht : ∀ c ∈ t.cols, c.length = t.nrows) :
    filter_negative_values t = selectRows t (keptIndices t) := by
  unfold filter_negative_values selectRows
  congr 1
  apply List.map_congr_left
  intro c hc
  have hlen : c.length = t.nrows := ht c hc
  have hmask : rowMask t
      = (List.range c.length).map
          (fun i => (numericCols t).all (fun col => cellNonNeg (col.getD i none))) := by
    rw [hlen]; rfl
  rw [hmask, applyMask_range_map]
  have hfun : (fun i => (numericCols t).all (fun col => cellNonNeg (col.getD i none)))
      = rowNonNeg t := by
    funext i
    unfold numericCols rowNonNeg
    exact all_filter isNumericCol (fun col => cellNonNeg (col.getD i none)) t.cols
  rw [hfun, hlen]
  rfl

lemma filter_nrows_le (t : Table) :
    (filter_negative_values t).nrows ≤ t.nrows := by
  unfold filter_negative_values Table.nrows
  cases t.cols with
  | nil => simp
  | cons c cs =>
    simp only [List.map_cons, List.headD_cons]
    exact applyMask_length_le _ c

/-- C5: on a rectangular table the Filter keeps exactly the rows in
which every value of every numeric-typed column is non-negative
(non-numeric columns are never examined by `rowNonNeg`), and the row
count never grows. -/
theorem filter_negative_values_spec (t : Table) (ht : ∀ c ∈ t.cols, c.length = t.nrows) :
    filter_negative_values t = selectRows t (keptIndices t)
    ∧ (filter_negative_values t).nrows ≤ t.nrows :=
  ⟨filter_eq_selectRows t ht, filter_nrows_le t⟩

/-- The two-row scenario table with columns x = (-1, 3) and y = (2, 4). -/
def tblScenario : Table :=
  Table.mk [[some (Val.num (-1)), some (Val.num 3)], [some (Val.num 2), some (Val.num 4)]]

/-- Witness for C5 on the scenario table: only the second row survives. -/
theorem filter_negative_values_spec_witness :
    (filter_negative_values tblScenario = selectRows tblScenario (keptIndices tblScenario)
      ∧ (filter_negative_values tblScenario).nrows ≤ tblScenario.nrows)
    ∧ filter_negative_values tblScenario
        = Table.mk [[some (Val.num 3)], [some (Val.num 4)]] :=
  ⟨filter_negative_values_spec tblScenario (by decide), by decide⟩

/-- C10: a missing value in a numeric-typed column fails the
non-negativity test, so the Filter drops the row: its index is not
kept, and on a rectangular table the result is exactly the table
restricted to the kept indices. -/
theorem filter_drops_missing_numeric (t : Table) (ht : ∀ c ∈ t.cols, c.length = t.nrows)
    (c : List (Option Val)) (hc : c ∈ t.cols) (hnum : isNumericCol c = true)
    (i : Nat) (hmiss : c.getD i none = none) :
    cellNonNeg (c.getD i none) = false
    ∧ rowNonNeg t i = false
    ∧ i ∉ keptIndices t
    ∧ filter_negative_values t = selectRows t (keptIndices t) := by
  have hcell : cellNonNeg (c.getD i none) = false := by rw [hmiss]; rfl
  have hrow : rowNonNeg t i = false := by
    unfold rowNonNeg
    rw [List.all_eq_false]
    have hcomp : (!isNumericCol c || cellNonNeg (c.getD i none)) = false := by
      rw [hnum, hcell]; rfl
    exact ⟨c, hc, by rw [hcomp]; simp⟩
  refine ⟨hcell, hrow, ?_, filter_eq_selectRows t ht⟩
  intro hmem
  unfold keptIndices at hmem
  have := List.of_mem_filter hmem
  rw [hrow] at this
  exact absurd this (by simp)

/-- A one-column table whose leading cell is missing: the forward fill
leaves the leading missing value in place. -/
def tblLeadingNone : Table := Table.mk [[none, some (Val.num 2)]]

/-- Witness for C10: after the Cleaner, the row with the surviving
leading missing value is silently dropped by the Filter. -/
theorem filter_drops_missing_numeric_witness :
    cellNonNeg (([none, some (Val.num 2)] : List (Option Val)).getD 0 none) = false
    ∧ rowNonNeg (clean_data tblLeadingNone) 0 = false
    ∧ 0 ∉ keptIndices (clean_data tblLeadingNone)
    ∧ filter_negative_values (clean_data tblLeadingNone)
        = selectRows (clean_data tblLeadingNone) (keptIndices (clean_data tblLeadingNone)) :=
  filter_drops_missing_numeric (clean_data tblLeadingNone) (by decide)
    [none, some (Val.num 2)] (by decide) (by decide) 0 (by decide)

lemma ffillFrom_length : ∀ (carry : Option Val) (c : List (Option Val)),
    (ffillFrom carry c).length = c.length := by
  intro carry c
  induction c generalizing carry with
  | nil => rfl
  | cons x rest ih =>
    cases x with
    | none => simp [ffillFrom, ih]
    | some v => simp [ffillFrom, ih]

lemma getD_map_optmap (g : Val → Val) : ∀ (l : List (Option Val)) (j : Nat),
    (l.map (Option.map g)).getD j none = Option.map g (l.getD j none) := by
  intro l
  induction l with
  | nil => intro j; simp
  | cons x xs ih =>
    intro j
    cases j with
    | zero => simp
    | succ j => simpa using ih j

lemma map_stringify_of_numeric : ∀ (c : List (Option Val)),
    isNumericCol c = true → c.map (Option.map stringifyVal) = c := by
  intro c
  induction c with
  | nil => intro _; rfl
  | cons x xs ih =>
    intro h
    unfold isNumericCol at h
    rw [List.all_cons, Bool.and_eq_true] at h
    rw [List.map_cons, ih h.2]
    have hx := h.1
    congr 1
    cases x with
    | none => rfl
    | some v =>
      cases v with
      | num n => rfl
      | str s => simp [isNumCell] at hx
      | dict d => simp [isNumCell] at hx

lemma cleanCol_eq_map (c : List (Option Val)) :
    cleanCol c = (ffillCol c).map (Option.map stringifyVal) := by
  unfold cleanCol
  by_cases h : isNumericCol (ffillCol c)
  · simp only [h, if_true]
    exact (map_stringify_of_numeric _ h).symm
  · simp [h]

/-- The forward fill at position `j` yields the most recent value among
the carried value and the present cells at positions `0..j`. -/
lemma ffillFrom_getD : ∀ (c : List (Option Val)) (carry : Option Val) (j : Nat),
    j < c.length →
    (ffillFrom carry c).getD j none
      = ((carry :: c.take (j + 1)).filterMap id).getLast? := by
  intro c
  induction c with
  | nil => intro carry j hj; simp at hj
  | cons x rest ih =>
    intro carry j hj
    cases x with
    | none =>
      cases j with
      | zero => cases carry <;> rfl
      | succ j =>
        have hj' : j < rest.length := by simpa using hj
        show (ffillFrom carry rest).getD j none = _
        rw [ih carry j hj']
        rw [List.take_succ_cons]
        cases carry with
        | none => rfl
        | some u => rfl
    | some v =>
      cases j with
      | zero => cases carry <;> rfl
      | succ j =>
        have hj' : j < rest.length := by simpa using hj
        show (ffillFrom (some v) rest).getD j none = _
        rw [ih (some v) j hj']
        rw [List.take_succ_cons]
        cases carry with
        | none => rfl
        | some u =>
          show _ = ((u :: v :: (rest.take (j + 1)).filterMap id) : List Val).getLast?
          rw [List.getLast?_cons_cons]
          rfl

/-- C4: after `clean_data`, each column is the forward fill of the
input column with dictionary values stringified: the cell at row `j` is
the nearest preceding (at-or-before `j`) non-missing value, it is
present as soon as some cell at or before `j` was present, scalar
values pass through `stringifyVal` untouched, and dictionary values
become their textual representation. -/
theorem clean_data_forward_fill (t : Table) (c : List (Option Val)) (hc : c ∈ t.cols)
    (j : Nat) (hj : j < c.length) :
    cleanCol c ∈ (clean_data t).cols
    ∧ (cleanCol c).getD j none
        = Option.map stringifyVal (((c.take (j + 1)).filterMap id).getLast?)
    ∧ (∀ i, i ≤ j → (c.getD i none).isSome = true
        → ((cleanCol c).getD j none).isSome = true)
    ∧ (∀ n : Int, stringifyVal (Val.num n) = Val.num n)
    ∧ (∀ s : String, stringifyVal (Val.str s) = Val.str s)
    ∧ (∀ d, stringifyVal (Val.dict d) = Val.str (dictToString d)) := by
  have hmain : (cleanCol c).getD j none
      = Option.map stringifyVal (((c.take (j + 1)).filterMap id).getLast?) := by
    rw [cleanCol_eq_map, getD_map_optmap]
    congr 1
    unfold ffillCol
    rw [ffillFrom_getD c none j hj]
    rfl
  refine ⟨List.mem_map_of_mem cleanCol hc, hmain, ?_, fun _ => rfl, fun _ => rfl, fun _ => rfl⟩
  intro i hij hsome
  rw [hmain]
  obtain ⟨v, hv⟩ := Option.isSome_iff_exists.mp hsome
  have hne : (c.take (j + 1)).filterMap id ≠ [] := by
    have hget : c.get? i = some (some v) := by
      rw [List.getD_eq_getD_get?] at hv
      cases hE : c.get? i with
      | none => rw [hE] at hv; simp at hv
      | some y => rw [hE] at hv; simp at hv; rw [hv]
    have hi : i < j + 1 := by omega
    have htake : (c.take (j + 1)).get? i = some (some v) := by
      rw [List.get?_take hi]
      exact hget
    have hmem : (some v) ∈ c.take (j + 1) := List.get?_mem htake
    have : v ∈ (c.take (j + 1)).filterMap id := List.mem_filterMap.mpr ⟨some v, hmem, rfl⟩
    exact List.ne_nil_of_mem this
  have hlast := List.getLast?_isSome.mpr hne
  cases hL : ((c.take (j + 1)).filterMap id).getLast? with
  | none => rw [hL] at hlast; simp at hlast
  | some w => rfl

/-- The single-column table of the C4 witness: a leading missing cell,
a present value 5, then a trailing missing cell for the fill to cover. -/
def colWitness : List (Option Val) := [none, some (Val.num 5), none]

def tblWitness : Table := Table.mk [colWitness]

/-- Witness for C4 at row 2 of the witness column. -/
theorem clean_data_forward_fill_witness :
    cleanCol colWitness ∈ (clean_data tblWitness).cols
    ∧ (cleanCol colWitness).getD 2 none
        = Option.map stringifyVal (((colWitness.take 3).filterMap id).getLast?)
    ∧ (∀ i, i ≤ 2 → (colWitness.getD i none).isSome = true
        → ((cleanCol colWitness).getD 2 none).isSome = true)
    ∧ (∀ n : Int, stringifyVal (Val.num n) = Val.num n)
    ∧ (∀ s : String, stringifyVal (Val.str s) = Val.str s)
    ∧ (∀ d, stringifyVal (Val.dict d) = Val.str (dictToString d)) :=
  clean_data_forward_fill tblWitness colWitness (by decide) 2 (by decide)

/-! ## Adjacency Finder (folium_traffic_dataset.py lines 36-59)

Each record carries a street identifier and a point built from its
start longitude/latitude.  The script buffers every point by 0.001
degrees and, for each row `idx` in order, selects
`gdf[gdf['buffer'].intersects(row['geometry']) & (gdf.index != idx)]`:
the other rows whose buffer contains the current row's point.  A row
with a non-empty selection appends one entry and increments a counter;
the loop breaks once the counter reaches 7.

Coordinates are modelled exactly in micro-degrees (decimal degrees
scaled by 10^6, an order-preserving change of units that represents
the dataset's decimal coordinates exactly), so the 0.001-degree buffer
radius is 1000 units; the buffer is the closed disk of that radius and
the buffer-contains-point test is a squared-distance comparison. -/

structure Row where
  street : String
  x : Int
  y : Int
deriving DecidableEq, Inhabited, Repr

/-- `buffer_distance = 0.001` degrees, in micro-degree units. -/
def bufferDistance : Int := 1000

/-- Whether the point of `p` lies within the buffer (closed disk of
radius `bufferDistance`) around the point of `center`. -/
def inBuffer (center p : Row) : Bool :=
  decide ((p.x - center.x) * (p.x - center.x) + (p.y - center.y) * (p.y - center.y)
    ≤ bufferDistance * bufferDistance)

lemma inBuffer_symm (a b : Row) : inBuffer a b = inBuffer b a := by
  unfold inBuffer
  have hx : (b.x - a.x) * (b.x - a.x) = (a.x - b.x) * (a.x - b.x) := by ring
  have hy : (b.y - a.y) * (b.y - a.y) = (a.y - b.y) * (a.y - b.y) := by ring
  rw [hx, hy]

/-- The street names selected by the boolean mask
`gdf['buffer'].intersects(row['geometry']) & (gdf.index != idx)`,
scanning the whole table with positional indices starting at `j`. -/
def adjStreetsFrom (center : Row) (exclude : Nat) : Nat → List Row → List String
  | _, [] => []
  | j, r :: rest =>
    if inBuffer r center && (j != exclude) then
      r.street :: adjStreetsFrom center exclude (j + 1) rest
    else adjStreetsFrom center exclude (j + 1) rest

/-- `adjacent['street'].tolist()` for the row `center` at index `exclude`. -/
def adjacentStreets (rows : List Row) (exclude : Nat) (center : Row) : List String :=
  adjStreetsFrom center exclude 0 rows

structure AdjEntry where
  intersection : String
  adjacent : List String
deriving DecidableEq, Repr

/-- The observable outcome of the adjacency loop: the appended entries
and the indices of the rows the loop examined before breaking. -/
structure AdjResult where
  entries : List AdjEntry
  examined : List Nat
deriving DecidableEq, Repr

/-- The `for idx, row in gdf.iterrows()` loop: compute the adjacent
rows of the current row; if non-empty, append an entry and bump the
counter; after the body, break once the counter equals 7. -/
def adjLoop (rows : List Row) : List Row → Nat → Nat → AdjResult
  | [], _, _ => ⟨[], []⟩
  | r :: rest, idx, count =>
    let s := adjacentStreets rows idx r
    if s.isEmpty then
      if count == 7 then ⟨[], [idx]⟩
      else
        let res := adjLoop rows rest (idx + 1) count
        ⟨res.entries, idx :: res.examined⟩
    else
      if count + 1 == 7 then ⟨[AdjEntry.mk r.street s], [idx]⟩
      else
        let res := adjLoop rows rest (idx + 1) (count + 1)
        ⟨AdjEntry.mk r.street s :: res.entries, idx :: res.examined⟩

def adjScan (rows : List Row) : AdjResult := adjLoop rows rows 0 0

/-- `adjacent_intersections` as accumulated by the script. -/
def adjacent_intersections (rows : List Row) : List AdjEntry := (adjScan rows).entries

/-- Stated from the spec's words: the identifiers of all other rows
whose point falls within the buffer of `center` (the row at index
`exclude`), scanning with positional indices starting at `j`. -/
def specAdjacentStreets (center : Row) (exclude : Nat) : Nat → List Row → List String
  | _, [] => []
  | j, r :: rest =>
    if (j != exclude) && inBuffer center r then
      r.street :: specAdjacentStreets center exclude (j + 1) rest
    else specAdjacentStreets center exclude (j + 1) rest

/-- Stated from the spec's words: one AdjacencyEntry for each row whose
adjacent set is non-empty, in row order, with no cap. -/
def specEntriesFrom (rows : List Row) : List Row → Nat → List AdjEntry
  | [], _ => []
  | r :: rest, idx =>
    let s := specAdjacentStreets r idx 0 rows
    if s.isEmpty then specEntriesFrom rows rest (idx + 1)
    else AdjEntry.mk r.street s :: specEntriesFrom rows rest (idx + 1)

def specEntries (rows : List Row) : List AdjEntry := specEntriesFrom rows rows 0

/-- The code's buffer-contains-this-point selection equals the spec's
point-in-this-buffer selection: the disk test is symmetric. -/
lemma adjStreets_eq_spec (center : Row) (exclude : Nat) :
    ∀ (l : List Row) (j : Nat),
      adjStreetsFrom center exclude j l = specAdjacentStreets center exclude j l := by
  intro l
  induction l with
  | nil => intro j; rfl
  | cons r rest ih =>
    intro j
    unfold adjStreetsFrom specAdjacentStreets
    rw [inBuffer_symm r center, Bool.and_comm]
    cases ((j != exclude) && inBuffer center r) with
    | true => simp only [if_true]; rw [ih (j + 1)]
    | false => simp only [Bool.false_eq_true, if_false]; rw [ih (j + 1)]

/-- With budget `7 - count` remaining, the capped loop emits exactly
the first `7 - count` uncapped entries of the remaining rows. -/
lemma adjLoop_entries_take (rows : List Row) :
    ∀ (l : List Row) (idx count : Nat), count < 7 →
      (adjLoop rows l idx count).entries = (specEntriesFrom rows l idx).take (7 - count) := by
  intro l
  induction l with
  | nil => intro idx count _; simp [adjLoop, specEntriesFrom]
  | cons r rest ih =>
    intro idx count hcount
    unfold adjLoop specEntriesFrom
    have hs : adjacentStreets rows idx r = specAdjacentStreets r idx 0 rows :=
      adjStreets_eq_spec r idx rows 0
    rw [hs]
    by_cases hemp : (specAdjacentStreets r idx 0 rows).isEmpty = true
    · rw [if_pos hemp, if_pos hemp]
      have hc7 : ¬ ((count == 7) = true) := by
        simp only [beq_iff_eq]
        omega
      rw [if_neg hc7]
      exact ih (idx + 1) count hcount
    · rw [if_neg hemp, if_neg hemp]
      by_cases hc7 : ((count + 1 == 7) = true)
      · have hcv : count = 6 := by
          simp only [beq_iff_eq] at hc7
          omega
        subst hcv
        rw [if_pos hc7]
        rfl
      · rw [if_neg hc7]
        have hlt : count + 1 < 7 := by
          simp only [beq_iff_eq] at hc7
          omega
        have harith : 7 - count = (7 - (count + 1)) + 1 := by omega
        rw [harith, List.take_succ_cons]
        show _ :: (adjLoop rows rest (idx + 1) (count + 1)).entries = _
        rw [ih (idx + 1) (count + 1) hlt]

/-- Internal form of the C6 refinement: the script's adjacency list is
the first seven uncapped spec entries. -/
lemma adjacent_intersections_eq_take (rows : List Row) :
    adjacent_intersections rows = (specEntries rows).take 7 := by
  unfold adjacent_intersections adjScan specEntries
  simpa using adjLoop_entries_take rows rows 0 0 (by omega)

/-- C6 (amended): the Adjacency Finder produces, for each of the first
seven rows whose adjacent set is non-empty, the set of identifiers of
all other rows whose point falls within that row's buffer, excluding
the row itself; the output is exactly the first seven entries of the
per-row characterization (the seven-match cap truncates the rest). -/
theorem adjacent_intersections_take_spec (rows : List Row) :
    adjacent_intersections rows = (specEntries rows).take 7 :=
  adjacent_intersections_eq_take rows

/-- Eight records at the same point, all mutually within buffer range. -/
def rows8 : List Row :=
  [Row.mk "s0" 0 0, Row.mk "s1" 0 0, Row.mk "s2" 0 0, Row.mk "s3" 0 0,
   Row.mk "s4" 0 0, Row.mk "s5" 0 0, Row.mk "s6" 0 0, Row.mk "s7" 0 0]

/-- Counterexample to C6 as stated: the eighth coincident record has a
non-empty set of in-buffer neighbours yet produces no AdjacencyEntry,
because the scan stops after the seventh match. -/
theorem adjacency_missing_eighth_entry :
    (specAdjacentStreets (Row.mk "s7" 0 0) 7 0 rows8).isEmpty = false
    ∧ (adjacent_intersections rows8).map AdjEntry.intersection
        = ["s0", "s1", "s2", "s3", "s4", "s5", "s6"] := by decide

/-- Every emitted spec entry comes from a row of the scanned list: its
street, its full adjacent set at the row's index, and that set's
non-emptiness. -/
lemma specEntriesFrom_mem (rows : List Row) :
    ∀ (l : List Row) (idx : Nat) (e : AdjEntry), e ∈ specEntriesFrom rows l idx →
      ∃ k r, l.get? k = some r
        ∧ e = AdjEntry.mk r.street (specAdjacentStreets r (idx + k) 0 rows)
        ∧ (specAdjacentStreets r (idx + k) 0 rows).isEmpty = false := by
  intro l
  induction l with
  | nil => intro idx e he; simp [specEntriesFrom] at he
  | cons r rest ih =>
    intro idx e he
    unfold specEntriesFrom at he
    by_cases hemp : (specAdjacentStreets r idx 0 rows).isEmpty = true
    · rw [if_pos hemp] at he
      obtain ⟨k, r', hk, he', hne⟩ := ih (idx + 1) e he
      have harith : idx + 1 + k = idx + (k + 1) := by omega
      rw [harith] at he' hne
      exact ⟨k + 1, r', by simpa using hk, he', hne⟩
    · rw [if_neg hemp] at he
      rw [List.mem_cons] at he
      cases he with
      | inl heq =>
        refine ⟨0, r, rfl, heq, ?_⟩
        simp only [Bool.not_eq_true] at hemp
        exact hemp
      | inr hm =>
        obtain ⟨k, r', hk, he', hne⟩ := ih (idx + 1) e hm
        have harith : idx + 1 + k = idx + (k + 1) := by omega
        rw [harith] at he' hne
        exact ⟨k + 1, r', by simpa using hk, he', hne⟩

/-- Membership in the spec adjacent set: exactly the streets of rows at
another index whose point is within the buffer of `center`. -/
lemma specAdjacentStreets_mem (center : Row) (exclude : Nat) :
    ∀ (l : List Row) (j : Nat) (s : String),
      s ∈ specAdjacentStreets center exclude j l
        ↔ ∃ k r, l.get? k = some r ∧ j + k ≠ exclude ∧ inBuffer center r = true
            ∧ r.street = s := by
  intro l
  induction l with
  | nil =>
    intro j s
    simp [specAdjacentStreets]
  | cons r rest ih =>
    intro j s
    unfold specAdjacentStreets
    by_cases hcond : ((j != exclude) && inBuffer center r) = true
    · rw [if_pos hcond]
      rw [Bool.and_eq_true, bne_iff_ne] at hcond
      rw [List.mem_cons, ih (j + 1) s]
      constructor
      · intro h
        cases h with
        | inl hs =>
          exact ⟨0, r, rfl, by simpa using hcond.1, hcond.2, hs.symm⟩
        | inr hx =>
          obtain ⟨k, r', hk, hkx, hbuf, hstr⟩ := hx
          exact ⟨k + 1, r', by simpa using hk, by omega, hbuf, hstr⟩
      · rintro ⟨k, r', hk, hkx, hbuf, hstr⟩
        cases k with
        | zero =>
          left
          have hr : r = r' := by simpa using hk
          rw [hr]
          exact hstr.symm
        | succ k =>
          right
          exact ⟨k, r', by simpa using hk, by omega, hbuf, hstr⟩
    · rw [if_neg hcond]
      rw [ih (j + 1) s]
      constructor
      · rintro ⟨k, r', hk, hkx, hbuf, hstr⟩
        exact ⟨k + 1, r', by simpa using hk, by omega, hbuf, hstr⟩
      · rintro ⟨k, r', hk, hkx, hbuf, hstr⟩
        cases k with
        | zero =>
          exfalso
          apply hcond
          have hr : r = r' := by simpa using hk
          rw [Bool.and_eq_true, bne_iff_ne]
          exact ⟨by omega, by rw [hr]; exact hbuf⟩
        | succ k =>
          exact ⟨k, r', by simpa using hk, by omega, hbuf, hstr⟩

/-- With pairwise-distinct street identifiers, a street determines its
row position. -/
lemma streets_get?_inj (rows : List Row) (hnd : (rows.map Row.street).Nodup)
    {i j : Nat} {ri rj : Row} (hi : rows.get? i = some ri) (hj : rows.get? j = some rj)
    (hs : ri.street = rj.street) : i = j := by
  have hmi : (rows.map Row.street).get? i = some ri.street := by
    rw [List.get?_map, hi]; rfl
  have hmj : (rows.map Row.street).get? j = some rj.street := by
    rw [List.get?_map, hj]; rfl
  have hlen : i < (rows.map Row.street).length := by
    by_contra hle
    rw [List.get?_eq_none.mpr (by omega)] at hmi
    exact Option.noConfusion hmi
  apply List.get?_inj hlen hnd
  rw [hmi, hmj, hs]

/-- C7 (amended): with pairwise-distinct street identifiers, whenever
record B appears in record A's adjacency list and record B itself
produces an AdjacencyEntry in the (capped) output, record A appears in
record B's adjacency list. -/
theorem adjacency_symmetric_of_both_listed (rows : List Row)
    (hnd : (rows.map Row.street).Nodup)
    (ea eb : AdjEntry) (hea : ea ∈ adjacent_intersections rows)
    (heb : eb ∈ adjacent_intersections rows)
    (hb : eb.intersection ∈ ea.adjacent) :
    ea.intersection ∈ eb.adjacent := by
  rw [adjacent_intersections_eq_take rows] at hea heb
  have hea' : ea ∈ specEntries rows := List.take_subset 7 _ hea
  have heb' : eb ∈ specEntries rows := List.take_subset 7 _ heb
  obtain ⟨ja, ra, hga, hae, hane⟩ := specEntriesFrom_mem rows rows 0 ea hea'
  obtain ⟨jb, rb, hgb, hbe, hbne⟩ := specEntriesFrom_mem rows rows 0 eb heb'
  simp only [Nat.zero_add] at hae hane hbe hbne
  subst hae
  subst hbe
  have hmem := (specAdjacentStreets_mem ra ja rows 0 rb.street).mp hb
  obtain ⟨k, r', hk, hkx, hbuf, hstr⟩ := hmem
  simp only [Nat.zero_add] at hkx
  have hkjb : k = jb := streets_get?_inj rows hnd hk hgb hstr
  rw [hkjb] at hk hkx
  have hr' : r' = rb := by
    rw [hk] at hgb
    exact Option.some.inj hgb
  apply (specAdjacentStreets_mem rb jb rows 0 ra.street).mpr
  refine ⟨ja, ra, hga, by omega, ?_, rfl⟩
  rw [inBuffer_symm, ← hr']
  exact hbuf

/-- Two coincident records with distinct streets, each adjacent to the
other. -/
def rowsPair : List Row := [Row.mk "a" 0 0, Row.mk "b" 0 0]

/-- Witness for C7 on the coincident pair: both rows produce entries,
"b" is adjacent to "a", and the theorem yields "a" adjacent to "b". -/
theorem adjacency_symmetric_witness :
    (AdjEntry.mk "a" ["b"]).intersection ∈ (AdjEntry.mk "b" ["a"]).adjacent :=
  adjacency_symmetric_of_both_listed rowsPair (by decide)
    (AdjEntry.mk "a" ["b"]) (AdjEntry.mk "b" ["a"]) (by decide) (by decide) (by decide)

/-- Counterexample to C7 as stated: among the eight coincident records,
"s7" appears in the adjacency list of "s0", but "s0" appears in no
adjacency list of "s7" — the scan stopped before examining "s7", which
produced no entry at all. -/
theorem adjacency_symmetry_cex :
    ((adjacent_intersections rows8).any
        (fun e => e.intersection == "s0" && e.adjacent.contains "s7")) = true
    ∧ ((adjacent_intersections rows8).any
        (fun e => e.intersection == "s7" && e.adjacent.contains "s0")) = false := by
  decide

/-- Whether the row at index `i` produces a match (a non-empty
adjacent selection), evaluated against the whole table. -/
def isMatch (rows : List Row) (i : Nat) : Bool :=
  !(adjacentStreets rows i (rows.getD i default)).isEmpty

/-- How many of the rows strictly before index `j` produce a match. -/
def countMatchesBelow (rows : List Row) (j : Nat) : Nat :=
  ((List.range j).filter (isMatch rows)).length

lemma countMatchesBelow_succ (rows : List Row) (i : Nat) :
    countMatchesBelow rows (i + 1)
      = countMatchesBelow rows i + (if isMatch rows i then 1 else 0) := by
  unfold countMatchesBelow
  rw [List.range_succ, List.filter_append, List.length_append]
  congr 1
  cases hm : isMatch rows i with
  | true => simp [List.filter, hm]
  | false => simp [List.filter, hm]

/-- Loop invariant of the seven-match cap: starting the scan at `idx`
with the counter equal to the number of matches before `idx`, every
examined row is preceded by fewer than seven matching rows. -/
lemma adjLoop_examined_lt (rows : List Row) :
    ∀ (l : List Row) (idx count : Nat),
      rows.drop idx = l → countMatchesBelow rows idx = count → count < 7 →
      ∀ j ∈ (adjLoop rows l idx count).examined, countMatchesBelow rows j < 7 := by
  intro l
  induction l with
  | nil => intro idx count _ _ _ j hj; simp [adjLoop] at hj
  | cons r rest ih =>
    intro idx count hdrop hcnt hlt j hj
    have hget : rows.get? idx = some r := by
      have h0 : (rows.drop idx).get? 0 = some r := by rw [hdrop]; rfl
      rw [List.get?_drop] at h0
      simpa using h0
    have hgetD : rows.getD idx default = r := by
      rw [List.getD_eq_getD_get?, hget]; rfl
    have hdrop' : rows.drop (idx + 1) = rest := by
      have h1 : rows.drop (idx + 1) = (rows.drop idx).drop 1 := by
        rw [List.drop_drop]
      rw [h1, hdrop]
      rfl
    have hmatch : isMatch rows idx = !(adjacentStreets rows idx r).isEmpty := by
      unfold isMatch
      rw [hgetD]
    unfold adjLoop at hj
    by_cases hemp : (adjacentStreets rows idx r).isEmpty = true
    · rw [if_pos hemp] at hj
      have hc7 : ¬ ((count == 7) = true) := by
        simp only [beq_iff_eq]
        omega
      rw [if_neg hc7] at hj
      have hj' : j = idx ∨ j ∈ (adjLoop rows rest (idx + 1) count).examined := by
        simpa using hj
      cases hj' with
      | inl he => rw [he, hcnt]; exact hlt
      | inr hm =>
        refine ih (idx + 1) count hdrop' ?_ hlt j hm
        rw [countMatchesBelow_succ, hcnt, hmatch, hemp]
        rfl
    · rw [if_neg hemp] at hj
      by_cases hc7 : ((count + 1 == 7) = true)
      · rw [if_pos hc7] at hj
        have hj' : j = idx := by simpa using hj
        rw [hj', hcnt]
        exact hlt
      · rw [if_neg hc7] at hj
        have hj' : j = idx ∨ j ∈ (adjLoop rows rest (idx + 1) (count + 1)).examined := by
          simpa using hj
        cases hj' with
        | inl he => rw [he, hcnt]; exact hlt
        | inr hm =>
          have hlt' : count + 1 < 7 := by
            simp only [beq_iff_eq] at hc7
            omega
          refine ih (idx + 1) (count + 1) hdrop' ?_ hlt' j hm
          rw [countMatchesBelow_succ, hcnt, hmatch]
          simp only [Bool.not_eq_true] at hemp
          rw [hemp]
          rfl

/-- C8: the capped scan emits at most seven AdjacencyEntries, and every
row it examines is preceded by fewer than seven matching rows — rows
past the seventh match are never examined. -/
theorem adjacency_cap_seven (rows : List Row) :
    (adjacent_intersections rows).length ≤ 7
    ∧ ∀ j ∈ (adjScan rows).examined, countMatchesBelow rows j < 7 := by
  constructor
  · rw [adjacent_intersections_eq_take rows]
    exact List.length_take_le 7 _
  · intro j hj
    exact adjLoop_examined_lt rows rows 0 0 (by simp) rfl (by omega) j hj

/-- Witness for C8 at the coincident pair: index 0 is examined and has
no matching predecessor. -/
theorem adjacency_cap_seven_witness :
    (adjacent_intersections rowsPair).length ≤ 7 ∧ countMatchesBelow rowsPair 0 < 7 :=
  ⟨(adjacency_cap_seven rowsPair).1, (adjacency_cap_seven rowsPair).2 0 (by decide)⟩

/-! ## Persister (`store_to_sqlite`, dynamic_traffic_light.py lines
74-83; identical copy in folium_traffic_dataset.py lines 62-71)

```
try:
    conn = sqlite3.connect(db_name)
    df.to_sql(table_name, conn, if_exists='replace', index=False)
    logging.info(...)
except sqlite3.Error as e:
    logging.error(...)
finally:
    conn.close()
```

The environment's behaviour is abstracted into three outcomes; the
model records, for each, which observable events the Python code
produces.  When `sqlite3.connect` itself raises, the `except` branch
catches and logs the database error, but the `finally` block then
evaluates `conn.close()` with the local name `conn` never having been
bound — this raises an uncaught `UnboundLocalError`, and no connection
exists to be closed. -/

inductive DBOutcome where
  | connectFail
  | writeFail
  | ok
deriving DecidableEq, Repr

structure StoreResult where
  connected : Bool
  closed : Bool
  loggedError : Bool
  loggedSuccess : Bool
  uncaught : Bool
deriving DecidableEq, Repr

def store_to_sqlite : DBOutcome → StoreResult
  | DBOutcome.connectFail => StoreResult.mk false false true false true
  | DBOutcome.writeFail => StoreResult.mk true true true false false
  | DBOutcome.ok => StoreResult.mk true true false true false

/-- C9 evaluation: database errors are caught and logged and the
connection is closed whenever it was established, but when
establishing the connection itself fails nothing is closed and the
cleanup raises an uncaught error — contradicting the claim that the
connection is always closed even in that case. -/
theorem store_to_sqlite_connect_failure :
    (store_to_sqlite DBOutcome.connectFail).closed = false
    ∧ (store_to_sqlite DBOutcome.connectFail).uncaught = true
    ∧ (store_to_sqlite DBOutcome.connectFail).loggedError = true
    ∧ (store_to_sqlite DBOutcome.writeFail).closed = true
    ∧ (store_to_sqlite DBOutcome.writeFail).loggedError = true
    ∧ (store_to_sqlite DBOutcome.ok).closed = true := by
  decide

end TrafficLight
